import Mathlib

/-!
# SteganoHuff (`src/App.jsx`): a shallow embedding of the encoder

The component `App` holds three pieces of algorithmic code:

* `huffmanEncode` (lines 18-23), the "Huffman encoding simulation";
* `embedLSB` (lines 26-69), the least-significant-bit embedding;
* `performEncode` / `simulateDecode` (lines 91-115, 139-149), the two request handlers.

Modelling conventions.

* A JavaScript string of binary digits is a `List Char`; a secret text is the list of its
  UTF-16 code units (`List Nat`), which is what `split('')` and `charCodeAt(0)` see.
* The `Uint8ClampedArray` behind `imgData.data` is a `List Nat` (four channels per pixel).
* `Math.random()` is a stream `random : Nat → ℚ`; `random k` is the value returned by the
  `k`-th call (counted from `0`).  Its contract is `0 ≤ random k < 1`.  Floating point
  arithmetic is idealised to exact rational arithmetic.
* A promise is represented by the way it settles (`Settled`).
-/

namespace SteganoHuff

/-! ## String helpers of the JavaScript runtime -/

/-- The method `String.prototype.padStart(targetLength, c)` for a one-character filler: the
string is returned unchanged when it is already long enough. -/
def padStart (targetLength : Nat) (c : Char) (s : List Char) : List Char :=
  List.replicate (targetLength - s.length) c ++ s

/-- The call `n.toString(2)` on a non-negative integer: binary digits, most significant
first, `"0"` for zero. -/
def toString2 (n : Nat) : List Char :=
  Nat.toDigits 2 n

/-- The call `parseInt(s)` on a one-character string: a decimal digit parses to its value,
any other character gives `NaN` (here `none`). -/
def parseInt (c : Char) : Option Nat :=
  if c.isDigit then some (c.toNat - 48) else none

/-- The expression `a | v` where `v` may be `NaN`, which the operator converts to `0`. -/
def bitOr (a : Nat) (v : Option Nat) : Nat :=
  a ||| v.getD 0

/-! ## `huffmanEncode` (lines 18-23) -/

/-- The object returned by `huffmanEncode`. -/
structure Encoded where
  /-- Field `compressed`: the binary string that is later embedded. -/
  compressed : List Char
  /-- Field `originalBits`. -/
  originalBits : Nat
  /-- Field `compressedBits`: the result of `Math.floor`. -/
  compressedBits : Int
deriving DecidableEq

/-- The function `huffmanEncode`; `r` is the value returned by its call of `Math.random()`. -/
def huffmanEncode (text : List Nat) (r : ℚ) : Encoded :=
  let originalBits := text.length * 8
  let compressedBits := Rat.floor ((originalBits : ℚ) * (0.5 + r * 0.15))
  let binaryData := (text.map fun c => padStart 8 '0' (toString2 c)).flatten
  { compressed := binaryData, originalBits := originalBits, compressedBits := compressedBits }

/-! ## `embedLSB` (lines 26-69) -/

/-- The way a promise settles: resolved with a value, rejected with an error message, or
never settled. -/
inductive Settled (α : Type) where
  | resolved (value : α)
  | rejected (message : String)
  | pending
deriving DecidableEq

/-- Lines 39-41: `header + binaryData`, where `header` is the payload length in binary,
left-padded to 24 digits. -/
def fullDataOf (binaryData : List Char) : List Char :=
  let dataLength := binaryData.length
  let header := padStart 24 '0' (toString2 dataLength)
  header ++ binaryData

/-- Line 49: the destructuring swap `[a[i], a[j]] = [a[j], a[i]]`.  Both right-hand values
are read first, then `a[i]` and `a[j]` are assigned in this order. -/
def swapAt (a : List Nat) (i j : Nat) : List Nat :=
  (a.set i (a.getD j 0)).set j (a.getD i 0)

/-- Line 48: `Math.floor(r * (i + 1))` for the random value `r`. -/
def randomIndex (r : ℚ) (i : Nat) : Nat :=
  (Rat.floor (r * ((i : ℚ) + 1))).toNat

/-- Lines 47-50: the Fisher-Yates loop from index `i` down to `1`; `k` counts the calls
of `Math.random()` made so far. -/
def shuffleFrom : Nat → Nat → (Nat → ℚ) → List Nat → List Nat
  | 0, _, _, a => a
  | i + 1, k, random, a =>
    shuffleFrom i (k + 1) random (swapAt a (i + 1) (randomIndex (random k) (i + 1)))

/-- Lines 46-50: `availablePositions` after the loop, for `n = totalPixels * 3`. -/
def shuffledPositions (n : Nat) (random : Nat → ℚ) : List Nat :=
  shuffleFrom (n - 1) 0 random (List.range n)

/-- Lines 43-54: the array `positions`. -/
def positionsOf (pixels : List Nat) (fullData : List Char) (randomize : Bool)
    (random : Nat → ℚ) : List Nat :=
  if randomize then
    let totalPixels := pixels.length / 4
    let availablePositions := shuffledPositions (totalPixels * 3) random
    availablePositions.take fullData.length
  else
    List.range fullData.length

/-- Line 58: the channel index of position `pos` (three writable channels per pixel). -/
def pixelIndexOf (pos : Nat) : Nat :=
  pos / 3 * 4 + pos % 3

/-- Lines 57-61: one iteration of the write loop, for position `pos` and character `c`. -/
def writeBit (pixels : List Nat) (pos : Nat) (c : Char) : List Nat :=
  let pixelIndex := pixelIndexOf pos
  if pixelIndex < pixels.length then
    pixels.set pixelIndex (bitOr (pixels.getD pixelIndex 0 &&& 0xFE) (parseInt c))
  else
    pixels

/-- Lines 56-62: the write loop; it runs while `i < fullData.length && i < positions.length`,
that is over the positions paired with the characters. -/
def writeAll (pixels : List Nat) (positions : List Nat) (fullData : List Char) : List Nat :=
  (positions.zip fullData).foldl (fun px pc => writeBit px pc.1 pc.2) pixels

/-- Lines 37-62: the body of `img.onload` from the moment `pixels` is obtained; the result
is the content of `pixels` when `putImageData` is called. -/
def embedPixels (pixels : List Nat) (binaryData : List Char) (randomize : Bool)
    (random : Nat → ℚ) : List Nat :=
  let fullData := fullDataOf binaryData
  let positions := positionsOf pixels fullData randomize random
  writeAll pixels positions fullData

/-- The function `embedLSB`.  The argument `imageData` is the decoded pixel buffer of the
data URL, `none` when the URL cannot be loaded (then `onload` never runs and the promise
stays pending).  The executor only ever calls `resolve`. -/
def embedLSB (imageData : Option (List Nat)) (binaryData : List Char) (randomize : Bool)
    (random : Nat → ℚ) : Settled (List Nat) :=
  match imageData with
  | none => Settled.pending
  | some pixels => Settled.resolved (embedPixels pixels binaryData randomize random)

/-! ## The request handlers (lines 91-115 and 139-149) -/

/-- The object passed to `setStats` (lines 102-108). -/
structure Stats where
  /-- Field `originalBits`. -/
  originalBits : Nat
  /-- Field `compressedBits`. -/
  compressedBits : Int
  /-- Field `compressionRate`: the percentage, rounded to one decimal. -/
  compressionRate : ℚ
  /-- Field `characters`. -/
  characters : Nat
  /-- Field `randomLSB`. -/
  randomLSB : Bool
deriving DecidableEq

/-- The `useState` cells read or written by `performEncode` and `simulateDecode`.  An
uploaded file and an image data URL are represented by the pixel buffer they decode to;
`none` is JavaScript `null`. -/
structure AppState where
  /-- Cell `encodeImage`. -/
  encodeImage : Option (List Nat)
  /-- Cell `decodeImage`. -/
  decodeImage : Option (List Nat)
  /-- Cell `secretText`. -/
  secretText : List Nat
  /-- Cell `decodedText`. -/
  decodedText : List Nat
  /-- Cell `encodePreview`. -/
  encodePreview : Option (List Nat)
  /-- Cell `encodedImageData`. -/
  encodedImageData : Option (List Nat)
  /-- Cell `stats`. -/
  stats : Option Stats
  /-- Cell `loading`. -/
  loading : Bool
  /-- Cell `useRandomLSB`. -/
  useRandomLSB : Bool
deriving DecidableEq

/-- What a handler does besides writing state cells: the dialogs it opens and the calls it
makes to `huffmanEncode` and `embedLSB`, in order. -/
inductive Event where
  | alert (message : String)
  | callHuffmanEncode (text : List Nat)
  | callEmbedLSB (imageData : Option (List Nat)) (binaryData : List Char) (randomize : Bool)
deriving DecidableEq

/-- The text of a string literal as UTF-16 code units (used for ASCII literals only). -/
def codeUnits (s : String) : List Nat :=
  s.toList.map Char.toNat

/-- Line 99 before formatting: `(1 - encoded.compressedBits / encoded.originalBits) * 100`. -/
def reductionPercent (encoded : Encoded) : ℚ :=
  (1 - (encoded.compressedBits : ℚ) / (encoded.originalBits : ℚ)) * 100

/-- The call `x.toFixed(1)`, as the number it prints: the nearest multiple of `1/10`, the
larger one on a tie. -/
def toFixed1 (x : ℚ) : ℚ :=
  (Rat.floor (x * 10 + 1 / 2) : ℚ) / 10

/-- The handler `performEncode`, run to completion: the state cells once the handler is
done (or stuck on a promise that never settles) and what it did.  `random 0` is drawn by
`huffmanEncode`, the following values by `embedLSB`. -/
def performEncode (s : AppState) (random : Nat → ℚ) : AppState × List Event :=
  if s.encodeImage.isNone ∨ s.secretText = [] then
    (s, [Event.alert "Please provide both an image and secret text"])
  else
    let encoded := huffmanEncode s.secretText (random 0)
    let compressionRate := toFixed1 (reductionPercent encoded)
    let calls := [Event.callHuffmanEncode s.secretText,
      Event.callEmbedLSB s.encodePreview encoded.compressed s.useRandomLSB]
    match embedLSB s.encodePreview encoded.compressed s.useRandomLSB
        (fun k => random (k + 1)) with
    | Settled.resolved encodedImage =>
      ({ s with
          encodedImageData := some encodedImage
          stats := some
            { originalBits := encoded.originalBits
              compressedBits := encoded.compressedBits
              compressionRate := compressionRate
              characters := s.secretText.length
              randomLSB := s.useRandomLSB }
          loading := false },
        calls ++ [Event.alert "✓ Message encoded successfully! Click download button."])
    | Settled.rejected message =>
      ({ s with loading := false }, calls ++ [Event.alert ("Error: " ++ message)])
    | Settled.pending =>
      ({ s with loading := true }, calls)

/-- The string literal of line 146. -/
def demoText : List Nat :=
  codeUnits "Demo: In full version, this extracts your hidden message!"

/-- The handler `simulateDecode`, run until its timer has fired. -/
def simulateDecode (s : AppState) : AppState × List Event :=
  if s.decodeImage.isNone then
    (s, [Event.alert "Please upload an encoded image"])
  else
    ({ s with decodedText := demoText, loading := false }, [])

/-- The round trip of a session: `plaintext` is typed, `cover` is uploaded (its preview is
loaded), `performEncode` runs, the encoded image is uploaded on the decode tab and
`simulateDecode` runs.  The result is the decoded text shown, `none` when no encoded image
was produced. -/
def encodeThenDecode (cover : List Nat) (plaintext : List Nat) (randomize : Bool)
    (random : Nat → ℚ) : Option (List Nat) :=
  let s0 : AppState :=
    { encodeImage := some cover, decodeImage := none, secretText := plaintext,
      decodedText := [], encodePreview := some cover, encodedImageData := none,
      stats := none, loading := false, useRandomLSB := randomize }
  let s1 := (performEncode s0 random).1
  match s1.encodedImageData with
  | none => none
  | some stego => some (simulateDecode { s1 with decodeImage := some stego }).1.decodedText

/-- A session with a cover loaded and nothing typed, used as a concrete instance. -/
def emptyTextSession : AppState :=
  { encodeImage := some [1, 2, 3, 255], decodeImage := none, secretText := [],
    decodedText := [], encodePreview := some [1, 2, 3, 255], encodedImageData := none,
    stats := none, loading := false, useRandomLSB := true }

/-! ## Readings used to state the properties -/

/-- The bit denoted by a binary digit character. -/
def bitValue (c : Char) : Nat :=
  if c = '1' then 1 else 0

/-- The unsigned number denoted by a string of binary digits, most significant first. -/
def readBigEndian (bits : List Char) : Nat :=
  bits.foldl (fun acc c => 2 * acc + bitValue c) 0

/-- A string made of the characters `'0'` and `'1'` only. -/
def IsBinary (s : List Char) : Prop :=
  ∀ c ∈ s, c = '0' ∨ c = '1'

/-- The code `c` written as exactly 8 binary digits, most significant first: the digit of
weight `2^k` for `k = 7, 6, ..., 0`. -/
def eightDigits (c : Nat) : List Char :=
  [7, 6, 5, 4, 3, 2, 1, 0].map fun k => if c / 2 ^ k % 2 = 1 then '1' else '0'

/-- Reading a bit string by blocks of 8 digits, each block as a big-endian number; a
trailing block of fewer than 8 digits is ignored. -/
def readBlocks : List Char → List Nat
  | b7 :: b6 :: b5 :: b4 :: b3 :: b2 :: b1 :: b0 :: rest =>
    readBigEndian [b7, b6, b5, b4, b3, b2, b1, b0] :: readBlocks rest
  | _ => []


/-! ## Binary digits -/

theorem digitChar_mod_two (n : Nat) :
    Nat.digitChar (n % 2) = '0' ∨ Nat.digitChar (n % 2) = '1' := by
  rcases Nat.mod_two_eq_zero_or_one n with h | h <;> simp [h, Nat.digitChar]

theorem bitValue_digitChar_mod_two (n : Nat) : bitValue (Nat.digitChar (n % 2)) = n % 2 := by
  rcases Nat.mod_two_eq_zero_or_one n with h | h <;> simp [h, Nat.digitChar, bitValue]

theorem toDigitsCore_append (fuel : Nat) : ∀ (n : Nat) (ds : List Char),
    Nat.toDigitsCore 2 fuel n ds = Nat.toDigitsCore 2 fuel n [] ++ ds := by
  induction fuel with
  | zero => intro n ds; simp [Nat.toDigitsCore]
  | succ fuel ih =>
    intro n ds
    simp only [Nat.toDigitsCore]
    by_cases h : n / 2 = 0
    · simp [h]
    · simp only [h, if_false]
      rw [ih (n / 2) (Nat.digitChar (n % 2) :: ds), ih (n / 2) [Nat.digitChar (n % 2)]]
      simp

theorem readBigEndian_append_singleton (bits : List Char) (c : Char) :
    readBigEndian (bits ++ [c]) = 2 * readBigEndian bits + bitValue c := by
  simp [readBigEndian, List.foldl_append]

theorem toDigitsCore_spec (fuel : Nat) : ∀ (n : Nat), n < fuel →
    readBigEndian (Nat.toDigitsCore 2 fuel n []) = n ∧
    IsBinary (Nat.toDigitsCore 2 fuel n []) ∧
    ∀ k, 0 < k → n < 2 ^ k → (Nat.toDigitsCore 2 fuel n []).length ≤ k := by
  induction fuel with
  | zero => intro n h; omega
  | succ fuel ih =>
    intro n hn
    simp only [Nat.toDigitsCore]
    by_cases h : n / 2 = 0
    · simp only [h, if_true]
      have hlt : n < 2 := by omega
      refine ⟨?_, ?_, ?_⟩
      · simp [readBigEndian, bitValue_digitChar_mod_two]; omega
      · intro c hc
        simp only [List.mem_singleton] at hc
        subst hc
        exact digitChar_mod_two n
      · intro k hk _; simpa using hk
    · simp only [h, if_false]
      rw [toDigitsCore_append]
      obtain ⟨h1, h2, h3⟩ := ih (n / 2) (by omega)
      refine ⟨?_, ?_, ?_⟩
      · rw [readBigEndian_append_singleton, h1, bitValue_digitChar_mod_two]; omega
      · intro c hc
        rcases List.mem_append.1 hc with hc | hc
        · exact h2 c hc
        · simp only [List.mem_singleton] at hc
          subst hc
          exact digitChar_mod_two n
      · intro k hk hnk
        have hk2 : 2 ≤ k := by
          by_contra hcon
          have : k = 1 := by omega
          subst this
          omega
        have := h3 (k - 1) (by omega) (by
          have : 2 ^ k = 2 * 2 ^ (k - 1) := by
            rw [← pow_succ']; congr 1; omega
          omega)
        simp only [List.length_append, List.length_singleton]
        omega

theorem toString2_read (n : Nat) : readBigEndian (toString2 n) = n :=
  (toDigitsCore_spec (n + 1) n (Nat.lt_succ_self n)).1

theorem toString2_binary (n : Nat) : IsBinary (toString2 n) :=
  (toDigitsCore_spec (n + 1) n (Nat.lt_succ_self n)).2.1

theorem toString2_length_le (n k : Nat) (hk : 0 < k) (h : n < 2 ^ k) :
    (toString2 n).length ≤ k :=
  (toDigitsCore_spec (n + 1) n (Nat.lt_succ_self n)).2.2 k hk h

theorem readBigEndian_replicate_zero_append (m : Nat) (s : List Char) :
    readBigEndian (List.replicate m '0' ++ s) = readBigEndian s := by
  induction m with
  | zero => simp
  | succ m ih =>
    simp only [List.replicate_succ, List.cons_append, readBigEndian, List.foldl_cons]
    simpa [readBigEndian, bitValue] using ih

theorem padStart_length (t : Nat) (c : Char) (s : List Char) :
    (padStart t c s).length = max t s.length := by
  simp [padStart]; omega

theorem padStart_binary (t : Nat) (s : List Char) (hs : IsBinary s) :
    IsBinary (padStart t '0' s) := by
  intro c hc
  simp only [padStart, List.mem_append, List.mem_replicate] at hc
  rcases hc with ⟨_, rfl⟩ | hc
  · exact Or.inl rfl
  · exact hs c hc


/-! ## The write loop: what a single write changes -/

theorem pixelIndexOf_mod_four (pos : Nat) : pixelIndexOf pos % 4 ≠ 3 := by
  unfold pixelIndexOf; omega

theorem pixelIndexOf_injective {p q : Nat} (h : pixelIndexOf p = pixelIndexOf q) : p = q := by
  unfold pixelIndexOf at h; omega

theorem pixelIndexOf_lt_iff (pos n : Nat) : pixelIndexOf pos < 4 * n ↔ pos < 3 * n := by
  unfold pixelIndexOf; omega

theorem pixelIndexOf_lt_of_lt (pos len : Nat) (h : pos < len / 4 * 3) :
    pixelIndexOf pos < len := by
  unfold pixelIndexOf; omega

theorem parseInt_binary {c : Char} (hc : c = '0' ∨ c = '1') :
    (parseInt c).getD 0 = bitValue c := by
  rcases hc with rfl | rfl <;> decide

theorem bitValue_le_one (c : Char) : bitValue c ≤ 1 := by
  unfold bitValue; split <;> omega

theorem bitOr_testBit {c : Char} (hc : c = '0' ∨ c = '1') (x b : Nat) (h1 : 1 ≤ b)
    (h7 : b ≤ 7) : (bitOr (x &&& 0xFE) (parseInt c)).testBit b = x.testBit b := by
  have hd : ((parseInt c).getD 0).testBit b = false := by
    rw [parseInt_binary hc]
    have := bitValue_le_one c
    apply Nat.testBit_lt_two_pow
    calc bitValue c < 2 := by omega
      _ ≤ 2 ^ b := by
        calc 2 = 2 ^ 1 := rfl
          _ ≤ 2 ^ b := Nat.pow_le_pow_right (by omega) h1
  have hm : (0xFE : Nat).testBit b = true := by
    interval_cases b <;> decide
  simp [bitOr, Nat.testBit_lor, Nat.testBit_land, hd, hm]

theorem bitOr_mod_two {c : Char} (hc : c = '0' ∨ c = '1') (x : Nat) :
    bitOr (x &&& 0xFE) (parseInt c) % 2 = bitValue c := by
  have h0 : (bitOr (x &&& 0xFE) (parseInt c)).testBit 0 = decide (bitValue c = 1) := by
    rw [bitOr, parseInt_binary hc, Nat.testBit_lor, Nat.testBit_land]
    rcases hc with rfl | rfl <;> simp [bitValue]
  have hb := bitValue_le_one c
  rw [Nat.testBit_zero] at h0
  by_cases h : bitValue c = 1
  · simp [h] at h0; omega
  · simp [h] at h0; omega

theorem writeBit_length (px : List Nat) (pos : Nat) (c : Char) :
    (writeBit px pos c).length = px.length := by
  simp only [writeBit]; split <;> simp

theorem writeBit_getD_of_ne (px : List Nat) (pos : Nat) (c : Char) (k : Nat)
    (h : k ≠ pixelIndexOf pos) : (writeBit px pos c).getD k 0 = px.getD k 0 := by
  simp only [writeBit]
  split
  · simp [List.getD_eq_getElem?_getD, List.getElem?_set, Ne.symm h]
  · rfl

theorem writeBit_getD_self (px : List Nat) (pos : Nat) (c : Char)
    (h : pixelIndexOf pos < px.length) :
    (writeBit px pos c).getD (pixelIndexOf pos) 0 =
      bitOr (px.getD (pixelIndexOf pos) 0 &&& 0xFE) (parseInt c) := by
  unfold writeBit
  simp [h, List.getD_eq_getElem?_getD, List.getElem?_set]

theorem writeBit_of_ge (px : List Nat) (pos : Nat) (c : Char)
    (h : px.length ≤ pixelIndexOf pos) : writeBit px pos c = px := by
  unfold writeBit
  simp [Nat.not_lt.2 h]

theorem writeAll_nil_left (px : List Nat) (data : List Char) : writeAll px [] data = px := by
  simp [writeAll]

theorem writeAll_nil_right (px : List Nat) (ps : List Nat) : writeAll px ps [] = px := by
  simp [writeAll]

theorem writeAll_cons (px : List Nat) (p : Nat) (ps : List Nat) (c : Char) (cs : List Char) :
    writeAll px (p :: ps) (c :: cs) = writeAll (writeBit px p c) ps cs := by
  simp [writeAll]

theorem writeAll_length (ps : List Nat) : ∀ (px : List Nat) (data : List Char),
    (writeAll px ps data).length = px.length := by
  induction ps with
  | nil => intro px data; simp [writeAll_nil_left]
  | cons p ps ih =>
    intro px data
    cases data with
    | nil => simp [writeAll_nil_right]
    | cons c cs => rw [writeAll_cons, ih, writeBit_length]

theorem writeAll_getD_of_not_mem (ps : List Nat) : ∀ (px : List Nat) (data : List Char)
    (k : Nat), (∀ q ∈ ps, pixelIndexOf q ≠ k) →
    (writeAll px ps data).getD k 0 = px.getD k 0 := by
  induction ps with
  | nil => intro px data k _; simp [writeAll_nil_left]
  | cons p ps ih =>
    intro px data k hk
    cases data with
    | nil => simp [writeAll_nil_right]
    | cons c cs =>
      rw [writeAll_cons, ih _ _ _ (fun q hq => hk q (List.mem_cons_of_mem _ hq))]
      exact writeBit_getD_of_ne _ _ _ _ (Ne.symm (hk p (List.mem_cons_self _ _)))


theorem writeBit_frame (px : List Nat) (pos : Nat) {c : Char} (hc : c = '0' ∨ c = '1')
    (k : Nat) :
    (∀ b, 1 ≤ b → b ≤ 7 →
      ((writeBit px pos c).getD k 0).testBit b = (px.getD k 0).testBit b) ∧
    (k % 4 = 3 → (writeBit px pos c).getD k 0 = px.getD k 0) := by
  by_cases hk : k = pixelIndexOf pos
  · subst hk
    refine ⟨fun b h1 h7 => ?_, fun h => absurd h (pixelIndexOf_mod_four pos)⟩
    by_cases hlt : pixelIndexOf pos < px.length
    · rw [writeBit_getD_self _ _ _ hlt, bitOr_testBit hc _ _ h1 h7]
    · rw [writeBit_of_ge _ _ _ (Nat.not_lt.1 hlt)]
  · rw [writeBit_getD_of_ne _ _ _ _ hk]
    exact ⟨fun _ _ _ => rfl, fun _ => rfl⟩

theorem writeAll_frame (ps : List Nat) : ∀ (px : List Nat) (data : List Char),
    IsBinary data → ∀ k : Nat,
    (∀ b, 1 ≤ b → b ≤ 7 →
      ((writeAll px ps data).getD k 0).testBit b = (px.getD k 0).testBit b) ∧
    (k % 4 = 3 → (writeAll px ps data).getD k 0 = px.getD k 0) := by
  induction ps with
  | nil => intro px data _ k; simp [writeAll_nil_left]
  | cons p ps ih =>
    intro px data hd k
    cases data with
    | nil => simp [writeAll_nil_right]
    | cons c cs =>
      rw [writeAll_cons]
      have hc : c = '0' ∨ c = '1' := hd c (List.mem_cons_self _ _)
      have hcs : IsBinary cs := fun x hx => hd x (List.mem_cons_of_mem _ hx)
      obtain ⟨i1, i2⟩ := ih (writeBit px p c) cs hcs k
      obtain ⟨w1, w2⟩ := writeBit_frame px p hc k
      exact ⟨fun b h1 h7 => (i1 b h1 h7).trans (w1 b h1 h7), fun h => (i2 h).trans (w2 h)⟩

theorem writeAll_lsb (ps : List Nat) : ∀ (px : List Nat) (data : List Char) (i p : Nat)
    (c : Char), ps.Nodup → IsBinary data → ps[i]? = some p → data[i]? = some c →
    pixelIndexOf p < px.length →
    (writeAll px ps data).getD (pixelIndexOf p) 0 % 2 = bitValue c := by
  induction ps with
  | nil => intro px data i p c _ _ hp; simp at hp
  | cons q ps ih =>
    intro px data i p c hnd hd hp hc hlt
    cases data with
    | nil => simp at hc
    | cons d ds =>
      rw [writeAll_cons]
      have hds : IsBinary ds := fun x hx => hd x (List.mem_cons_of_mem _ hx)
      rw [List.nodup_cons] at hnd
      cases i with
      | zero =>
        simp only [List.getElem?_cons_zero, Option.some.injEq] at hp hc
        subst hp; subst hc
        rw [writeAll_getD_of_not_mem, writeBit_getD_self _ _ _ hlt,
          bitOr_mod_two (hd _ (List.mem_cons_self _ _))]
        intro r hr heq
        exact hnd.1 (pixelIndexOf_injective heq ▸ hr)
      | succ i =>
        simp only [List.getElem?_cons_succ] at hp hc
        exact ih _ ds i p c hnd.2 hds hp hc (by rw [writeBit_length]; exact hlt)

theorem isBinary_fullDataOf {payload : List Char} (hp : IsBinary payload) :
    IsBinary (fullDataOf payload) := by
  intro c hc
  simp only [fullDataOf, List.mem_append] at hc
  rcases hc with hc | hc
  · exact padStart_binary 24 _ (toString2_binary _) c hc
  · exact hp c hc

theorem fullDataOf_length_ge (payload : List Char) :
    24 + payload.length ≤ (fullDataOf payload).length := by
  simp only [fullDataOf, List.length_append, padStart_length]
  omega

theorem fullDataOf_length (payload : List Char) (h : payload.length < 2 ^ 24) :
    (fullDataOf payload).length = 24 + payload.length := by
  have := toString2_length_le payload.length 24 (by omega) h
  simp only [fullDataOf, List.length_append, padStart_length]
  omega

/-- Claim C1. Non-destructive embed: for every pixel buffer, every payload made of `'0'`/`'1'`
characters, both modes and any stream of random values, `embedLSB` resolves with a buffer
of the same length in which, for every index `k`, bits 1 to 7 of channel `k` are those of
the cover, and every alpha channel (`k % 4 = 3`) is equal to the cover's. -/
theorem embedLSB_non_destructive (pixels : List Nat) (payload : List Char)
    (randomize : Bool) (random : Nat → ℚ) (hp : IsBinary payload) :
    ∃ stego, embedLSB (some pixels) payload randomize random = Settled.resolved stego ∧
      stego.length = pixels.length ∧
      ∀ k : Nat,
        (∀ b, 1 ≤ b → b ≤ 7 → (stego.getD k 0).testBit b = (pixels.getD k 0).testBit b) ∧
        (k % 4 = 3 → stego.getD k 0 = pixels.getD k 0) :=
  ⟨_, rfl, writeAll_length _ _ _, writeAll_frame _ _ _ (isBinary_fullDataOf hp)⟩

/-- An instance of `embedLSB_non_destructive`: randomized mode on a two-pixel cover. -/
theorem embedLSB_non_destructive_witness :
    IsBinary ['1', '0'] ∧
    ∃ stego, embedLSB (some [255, 254, 7, 200, 1, 2, 3, 4]) ['1', '0'] true (fun _ => 1 / 2)
        = Settled.resolved stego ∧
      stego.length = [255, 254, 7, 200, 1, 2, 3, 4].length ∧
      ∀ k : Nat,
        (∀ b, 1 ≤ b → b ≤ 7 →
          (stego.getD k 0).testBit b = (([255, 254, 7, 200, 1, 2, 3, 4] : List Nat).getD k 0).testBit b) ∧
        (k % 4 = 3 → stego.getD k 0 = ([255, 254, 7, 200, 1, 2, 3, 4] : List Nat).getD k 0) :=
  ⟨by simp [IsBinary], embedLSB_non_destructive _ _ _ _ (by simp [IsBinary])⟩


theorem positionsOf_sequential (pixels : List Nat) (fullData : List Char)
    (random : Nat → ℚ) :
    positionsOf pixels fullData false random = List.range fullData.length := by
  simp [positionsOf]

theorem embedPixels_sequential_lsb (pixels : List Nat) (payload : List Char)
    (random : Nat → ℚ) (hp : IsBinary payload) (i : Nat)
    (hi : i < (fullDataOf payload).length) (hlt : pixelIndexOf i < pixels.length) :
    ∃ c, (fullDataOf payload)[i]? = some c ∧
      (embedPixels pixels payload false random).getD (pixelIndexOf i) 0 % 2 = bitValue c := by
  refine ⟨(fullDataOf payload)[i], List.getElem?_eq_getElem hi, ?_⟩
  simp only [embedPixels, positionsOf_sequential]
  exact writeAll_lsb _ _ _ i i _ (List.nodup_range _) (isBinary_fullDataOf hp)
    (by simp [List.getElem?_range hi]) (List.getElem?_eq_getElem hi) hlt

theorem padStart_of_le (t : Nat) (c : Char) (s : List Char) (h : t ≤ s.length) :
    padStart t c s = s := by
  simp [padStart, Nat.sub_eq_zero_of_le h]

/-- Claim C2, counterexample: a payload of `25165800` bits, all `'1'`, on a cover of `2^23`
pixels whose channels are all `255`, so that `24 + len(payload) = 3 * P` exactly.  The
header of that length has 25 digits, the last one `'0'`: position 24 receives this digit
and not the first payload bit `'1'`, the stream has `25 + len(payload)` characters, and its
last character falls on index `4 * P`, outside the buffer, where the guard drops it. -/
theorem sequential_overflow_counterexample :
    (List.replicate (4 * 2 ^ 23) 255).length = 4 * 2 ^ 23 ∧
    IsBinary (List.replicate 25165800 '1') ∧
    24 + (List.replicate 25165800 '1').length ≤ 3 * 2 ^ 23 ∧
    ∃ stego, embedLSB (some (List.replicate (4 * 2 ^ 23) 255))
        (List.replicate 25165800 '1') false (fun _ => 0) = Settled.resolved stego ∧
      (List.replicate 25165800 '1')[0]? = some '1' ∧
      stego.getD (24 / 3 * 4 + 24 % 3) 0 % 2 = 0 ∧
      (fullDataOf (List.replicate 25165800 '1')).length = 25 + 25165800 ∧
      stego.length = 4 * 2 ^ 23 ∧
      (24 + 25165800) / 3 * 4 + (24 + 25165800) % 3 = 4 * 2 ^ 23 := by
  have hbin : IsBinary (List.replicate 25165800 '1') := by
    intro c hc
    exact Or.inr (List.eq_of_mem_replicate hc)
  have hdl : (toString2 25165800).length = 25 := by decide
  have hd24 : (toString2 25165800)[24]? = some '0' := by decide
  have hfull : fullDataOf (List.replicate 25165800 '1')
      = toString2 25165800 ++ List.replicate 25165800 '1' := by
    rw [fullDataOf, List.length_replicate, padStart_of_le _ _ _ (by rw [hdl]; decide)]
  have hflen : (fullDataOf (List.replicate 25165800 '1')).length = 25 + 25165800 := by
    rw [hfull, List.length_append, hdl, List.length_replicate]
  have hplen : ((List.replicate (4 * 2 ^ 23) 255 : List Nat)).length = 4 * 2 ^ 23 :=
    List.length_replicate _ _
  refine ⟨hplen, hbin, by rw [List.length_replicate]; decide, _, rfl, ?_, ?_, hflen, ?_,
    by decide⟩
  · rw [List.getElem?_replicate]; decide
  · obtain ⟨c, hc, hbit⟩ := embedPixels_sequential_lsb (List.replicate (4 * 2 ^ 23) 255)
      (List.replicate 25165800 '1') (fun _ => 0) hbin 24 (by rw [hflen]; decide)
      (by rw [hplen]; decide)
    rw [hfull, List.getElem?_append_left (by rw [hdl]; decide), hd24] at hc
    have hc0 : c = '0' := (Option.some.inj hc).symm
    have hb : bitValue '0' = 0 := by decide
    have hidx : pixelIndexOf 24 = 24 / 3 * 4 + 24 % 3 := rfl
    rw [hc0, hb, hidx] at hbit
    exact hbit
  · rw [embedPixels, writeAll_length, hplen]

/-- Claim C2, amended: for a buffer of `P` pixels and a `'0'`/`'1'` payload shorter than
`2^24` bits with `24 + len(payload) ≤ 3 * P` (equality included), the stream written is a
header of exactly 24 binary digits whose big-endian value is `len(payload)`, followed by
the payload, and `embedLSB` with `randomize = false` resolves with a buffer in which
positions are used in increasing order from `0` and none is skipped: for every `i < 24`
the channel at index `i / 3 * 4 + i % 3` exists and carries the `i`-th header digit in its
least-significant bit, and for every `k < len(payload)` the channel of position `24 + k`
exists and carries the `k`-th payload bit. -/
theorem embedLSB_sequential_postcondition (pixels : List Nat) (P : Nat)
    (payload : List Char) (random : Nat → ℚ) (hlen : pixels.length = 4 * P)
    (hp : IsBinary payload) (hshort : payload.length < 2 ^ 24)
    (hcap : 24 + payload.length ≤ 3 * P) :
    ∃ header stego, fullDataOf payload = header ++ payload ∧ header.length = 24 ∧
      IsBinary header ∧ readBigEndian header = payload.length ∧
      embedLSB (some pixels) payload false random = Settled.resolved stego ∧
      (∀ i, i < 24 →
        ∃ c, header[i]? = some c ∧ i / 3 * 4 + i % 3 < stego.length ∧
          stego.getD (i / 3 * 4 + i % 3) 0 % 2 = bitValue c) ∧
      ∀ k, k < payload.length →
        ∃ c, payload[k]? = some c ∧ (24 + k) / 3 * 4 + (24 + k) % 3 < stego.length ∧
          stego.getD ((24 + k) / 3 * 4 + (24 + k) % 3) 0 % 2 = bitValue c := by
  have hd := toString2_length_le payload.length 24 (by omega) hshort
  have hhl : (padStart 24 '0' (toString2 payload.length)).length = 24 := by
    rw [padStart_length]; omega
  have hfl := fullDataOf_length payload hshort
  have hstego : (embedPixels pixels payload false random).length = pixels.length := by
    rw [embedPixels, writeAll_length]
  have hin : ∀ i, i < 24 + payload.length → pixelIndexOf i < pixels.length := by
    intro i hi
    rw [hlen, pixelIndexOf_lt_iff]; omega
  refine ⟨padStart 24 '0' (toString2 payload.length), _, rfl, hhl,
    padStart_binary 24 _ (toString2_binary _), ?_, rfl, fun i hi => ?_, fun k hk => ?_⟩
  · rw [padStart, readBigEndian_replicate_zero_append, toString2_read]
  · obtain ⟨c, hc, hbit⟩ := embedPixels_sequential_lsb pixels payload random hp i
      (by rw [hfl]; omega) (hin i (by omega))
    rw [fullDataOf, List.getElem?_append_left (by rw [hhl]; exact hi)] at hc
    exact ⟨c, hc, by rw [hstego]; exact hin i (by omega), hbit⟩
  · obtain ⟨c, hc, hbit⟩ := embedPixels_sequential_lsb pixels payload random hp (24 + k)
      (by rw [hfl]; omega) (hin (24 + k) (by omega))
    rw [fullDataOf, List.getElem?_append_right (by rw [hhl]; omega), hhl,
      Nat.add_sub_cancel_left] at hc
    exact ⟨c, hc, by rw [hstego]; exact hin (24 + k) (by omega), hbit⟩

/-- An instance of `embedLSB_sequential_postcondition` at the capacity boundary: nine pixels,
27 positions, `24 + 3` bits. -/
theorem embedLSB_sequential_postcondition_witness :
    ([200, 201, 202, 255, 7, 8, 9, 255, 0, 0, 0, 255, 1, 1, 1, 255, 1, 1, 1, 255, 1, 1, 1, 255,
      0, 0, 0, 255, 1, 1, 1, 255, 3, 3, 3, 255] : List Nat).length = 4 * 9 ∧
    IsBinary ['1', '0', '1'] ∧ ['1', '0', '1'].length < 2 ^ 24 ∧
    24 + ['1', '0', '1'].length ≤ 3 * 9 ∧
    ∃ header stego, fullDataOf ['1', '0', '1'] = header ++ ['1', '0', '1'] ∧
      header.length = 24 ∧ IsBinary header ∧ readBigEndian header = ['1', '0', '1'].length ∧
      embedLSB (some [200, 201, 202, 255, 7, 8, 9, 255, 0, 0, 0, 255, 1, 1, 1, 255,
        1, 1, 1, 255, 1, 1, 1, 255, 0, 0, 0, 255, 1, 1, 1, 255, 3, 3, 3, 255])
        ['1', '0', '1'] false (fun _ => 0) = Settled.resolved stego ∧
      (∀ i, i < 24 →
        ∃ c, header[i]? = some c ∧ i / 3 * 4 + i % 3 < stego.length ∧
          stego.getD (i / 3 * 4 + i % 3) 0 % 2 = bitValue c) ∧
      ∀ k, k < ['1', '0', '1'].length →
        ∃ c, ['1', '0', '1'][k]? = some c ∧
          (24 + k) / 3 * 4 + (24 + k) % 3 < stego.length ∧
          stego.getD ((24 + k) / 3 * 4 + (24 + k) % 3) 0 % 2 = bitValue c :=
  ⟨by decide, by simp [IsBinary], by decide, by decide,
    embedLSB_sequential_postcondition _ 9 _ (fun _ => 0) (by decide) (by simp [IsBinary])
      (by decide) (by decide)⟩

/-- Claim C3, counterexample: a one-pixel cover has 3 writable channels and the 8-bit
payload `"01000001"` needs `24 + 8` of them, yet `embedLSB` is not rejected: it resolves
with a buffer in which the first three header bits (all `0`) have been written. -/
theorem embedLSB_capacity_counterexample :
    24 + ['0', '1', '0', '0', '0', '0', '0', '1'].length > 3 * 1 ∧
    ([255, 255, 255, 255] : List Nat).length = 4 * 1 ∧
    (∀ message,
      embedLSB (some [255, 255, 255, 255]) ['0', '1', '0', '0', '0', '0', '0', '1'] false
        (fun _ => 0) ≠ Settled.rejected message) ∧
    embedLSB (some [255, 255, 255, 255]) ['0', '1', '0', '0', '0', '0', '0', '1'] false
        (fun _ => 0) = Settled.resolved [254, 254, 254, 255] := by
  have h2 : embedLSB (some [255, 255, 255, 255]) ['0', '1', '0', '0', '0', '0', '0', '1']
      false (fun _ => 0) = Settled.resolved [254, 254, 254, 255] := by decide!
  refine ⟨by decide, by decide, ?_, h2⟩
  intro message h
  rw [h2] at h
  exact Settled.noConfusion h

/-- Claim C3, amended: when `24 + len(payload) > 3 * P`, `embedLSB` does not fail in either
mode: it resolves with a buffer of the cover's length.  In sequential mode that buffer holds
a partial write: for every `i < 3 * P` the channel at index `i / 3 * 4 + i % 3` carries the
`i`-th character of `header ++ payload` in its least-significant bit (the later characters
are dropped by the bounds guard: there is no channel left for them). -/
theorem embedLSB_over_capacity (pixels : List Nat) (P : Nat) (payload : List Char)
    (randomize : Bool) (random : Nat → ℚ) (hlen : pixels.length = 4 * P)
    (hp : IsBinary payload) (hcap : 24 + payload.length > 3 * P) :
    (∃ stego, embedLSB (some pixels) payload randomize random = Settled.resolved stego ∧
      stego.length = pixels.length) ∧
    ∃ stego, embedLSB (some pixels) payload false random = Settled.resolved stego ∧
      ∀ i, i < 3 * P →
        ∃ c, (padStart 24 '0' (toString2 payload.length) ++ payload)[i]? = some c ∧
          stego.getD (i / 3 * 4 + i % 3) 0 % 2 = bitValue c := by
  refine ⟨⟨_, rfl, writeAll_length _ _ _⟩, _, rfl, fun i hi => ?_⟩
  have hlt : pixelIndexOf i < pixels.length := by
    rw [hlen, pixelIndexOf_lt_iff]; exact hi
  exact embedPixels_sequential_lsb pixels payload random hp i
    (by have := fullDataOf_length_ge payload; omega) hlt

/-- An instance of `embedLSB_over_capacity` on a one-pixel cover. -/
theorem embedLSB_over_capacity_witness :
    ([255, 255, 255, 255] : List Nat).length = 4 * 1 ∧ IsBinary ['1'] ∧
    24 + ['1'].length > 3 * 1 ∧
    (∃ stego, embedLSB (some [255, 255, 255, 255]) ['1'] true (fun _ => 1 / 2)
        = Settled.resolved stego ∧
      stego.length = ([255, 255, 255, 255] : List Nat).length) ∧
    ∃ stego, embedLSB (some [255, 255, 255, 255]) ['1'] false (fun _ => 1 / 2)
        = Settled.resolved stego ∧
      ∀ i, i < 3 * 1 →
        ∃ c, (padStart 24 '0' (toString2 ['1'].length) ++ ['1'])[i]? = some c ∧
          stego.getD (i / 3 * 4 + i % 3) 0 % 2 = bitValue c :=
  ⟨by decide, by simp [IsBinary], by decide,
    embedLSB_over_capacity _ 1 _ true _ (by decide) (by simp [IsBinary]) (by decide)⟩


/-- Claim C4. Stego header: for a payload of length `L ≤ 2^24 - 1`, the stream written by
`embedLSB` (`fullData`) is a header of exactly 24 binary digits followed by the payload
unchanged; read as an unsigned big-endian number the header equals `L`, and `fullData` has
length `24 + L`. -/
theorem fullData_header (payload : List Char) (hL : payload.length ≤ 2 ^ 24 - 1) :
    ∃ header, fullDataOf payload = header ++ payload ∧ header.length = 24 ∧
      IsBinary header ∧ readBigEndian header = payload.length ∧
      (fullDataOf payload).length = 24 + payload.length := by
  have hlt : payload.length < 2 ^ 24 := by omega
  have hd := toString2_length_le payload.length 24 (by omega) hlt
  refine ⟨padStart 24 '0' (toString2 payload.length), rfl, ?_,
    padStart_binary 24 _ (toString2_binary _), ?_, fullDataOf_length payload hlt⟩
  · rw [padStart_length]; omega
  · rw [padStart, readBigEndian_replicate_zero_append, toString2_read]

/-- An instance of `fullData_header` for a three-bit payload. -/
theorem fullData_header_witness :
    ['1', '0', '1'].length ≤ 2 ^ 24 - 1 ∧
    ∃ header, fullDataOf ['1', '0', '1'] = header ++ ['1', '0', '1'] ∧ header.length = 24 ∧
      IsBinary header ∧ readBigEndian header = ['1', '0', '1'].length ∧
      (fullDataOf ['1', '0', '1']).length = 24 + ['1', '0', '1'].length :=
  ⟨by decide, fullData_header ['1', '0', '1'] (by decide)⟩

/-! ## The Fisher-Yates loop -/

theorem swapAt_length (a : List Nat) (i j : Nat) : (swapAt a i j).length = a.length := by
  simp [swapAt]

theorem count_set_add (l : List Nat) : ∀ (i x v : Nat), i < l.length →
    (l.set i x).count v + (if l.getD i 0 = v then 1 else 0) =
      l.count v + (if x = v then 1 else 0) := by
  induction l with
  | nil => intro i x v h; simp at h
  | cons y ys ih =>
    intro i x v h
    cases i with
    | zero =>
      simp only [List.set_cons_zero, List.count_cons, List.getD_cons_zero, beq_iff_eq]
      omega
    | succ i =>
      have := ih i x v (by simpa using h)
      simp only [List.set_cons_succ, List.count_cons, List.getD_cons_succ, beq_iff_eq]
      omega

theorem getD_set_self (l : List Nat) (i x : Nat) (h : i < l.length) :
    (l.set i x).getD i 0 = x := by
  simp [List.getD_eq_getElem?_getD, List.getElem?_set, h]

theorem getD_set_of_ne (l : List Nat) (i j x : Nat) (h : i ≠ j) :
    (l.set i x).getD j 0 = l.getD j 0 := by
  simp [List.getD_eq_getElem?_getD, List.getElem?_set, h]

theorem swapAt_perm (a : List Nat) (i j : Nat) (hi : i < a.length) (hj : j < a.length) :
    (swapAt a i j).Perm a := by
  rw [List.perm_iff_count]
  intro v
  have h1 := count_set_add a i (a.getD j 0) v hi
  have h2 := count_set_add (a.set i (a.getD j 0)) j (a.getD i 0) v (by simpa using hj)
  have h3 : (a.set i (a.getD j 0)).getD j 0 = a.getD j 0 := by
    by_cases hij : i = j
    · subst hij; exact getD_set_self _ _ _ hi
    · exact getD_set_of_ne _ _ _ _ hij
  rw [h3] at h2
  unfold swapAt
  omega

theorem randomIndex_le (r : ℚ) (i : Nat) (h1 : r < 1) : randomIndex r i ≤ i := by
  unfold randomIndex
  have hpos : (0 : ℚ) < (i : ℚ) + 1 := by positivity
  have hlt : r * ((i : ℚ) + 1) < (i : ℚ) + 1 := by nlinarith
  have hfl : Rat.floor (r * ((i : ℚ) + 1)) = ⌊r * ((i : ℚ) + 1)⌋ := rfl
  rw [hfl]
  have h2 : ⌊r * ((i : ℚ) + 1)⌋ < (i : ℤ) + 1 := by
    rw [Int.floor_lt]; push_cast; exact hlt
  omega

/-- Every index `j ≤ i` is produced by some random value of `[0, 1)`, namely `j / (i + 1)`:
the streams of random values cover every sequence of draws. -/
theorem randomIndex_surjective (i j : Nat) (h : j ≤ i) :
    ∃ r : ℚ, 0 ≤ r ∧ r < 1 ∧ randomIndex r i = j := by
  have hpos : (0 : ℚ) < (i : ℚ) + 1 := by positivity
  refine ⟨(j : ℚ) / ((i : ℚ) + 1), by positivity, ?_, ?_⟩
  · rw [div_lt_one hpos]
    have : (j : ℚ) ≤ (i : ℚ) := by exact_mod_cast h
    linarith
  · unfold randomIndex
    rw [div_mul_cancel₀ _ (ne_of_gt hpos)]
    have hfl : Rat.floor (j : ℚ) = ⌊(j : ℚ)⌋ := rfl
    rw [hfl]
    simp

theorem shuffleFrom_length (i : Nat) : ∀ (k : Nat) (random : Nat → ℚ) (a : List Nat),
    (shuffleFrom i k random a).length = a.length := by
  induction i with
  | zero => intro k random a; rfl
  | succ i ih => intro k random a; rw [shuffleFrom, ih, swapAt_length]

theorem shuffleFrom_perm (random : Nat → ℚ) (hr : ∀ k, 0 ≤ random k ∧ random k < 1)
    (i : Nat) : ∀ (k : Nat) (a : List Nat), i = 0 ∨ i < a.length →
    (shuffleFrom i k random a).Perm a := by
  induction i with
  | zero => intro k a _; exact List.Perm.refl _
  | succ i ih =>
    intro k a h
    have hi : i + 1 < a.length := by omega
    have hj := randomIndex_le (random k) (i + 1) (hr k).2
    rw [shuffleFrom]
    exact (ih (k + 1) _ (Or.inr (by rw [swapAt_length]; omega))).trans
      (swapAt_perm a _ _ hi (by omega))

theorem shuffledPositions_perm (n : Nat) (random : Nat → ℚ)
    (hr : ∀ k, 0 ≤ random k ∧ random k < 1) :
    (shuffledPositions n random).Perm (List.range n) := by
  unfold shuffledPositions
  apply shuffleFrom_perm random hr
  rw [List.length_range]
  omega

theorem shuffledPositions_length (n : Nat) (random : Nat → ℚ) :
    (shuffledPositions n random).length = n := by
  rw [shuffledPositions, shuffleFrom_length, List.length_range]

theorem shuffleFrom_congr (random1 random2 : Nat → ℚ) (i : Nat) : ∀ (k : Nat) (a : List Nat),
    (∀ m, m < i → random1 (k + m) = random2 (k + m)) →
    shuffleFrom i k random1 a = shuffleFrom i k random2 a := by
  induction i with
  | zero => intro k a _; rfl
  | succ i ih =>
    intro k a h
    have h0 := h 0 (by omega)
    rw [Nat.add_zero] at h0
    rw [shuffleFrom, shuffleFrom, h0]
    apply ih
    intro m hm
    have := h (m + 1) (by omega)
    rwa [show k + (m + 1) = k + 1 + m by omega] at this

theorem positionsOf_randomized (pixels : List Nat) (fullData : List Char)
    (random : Nat → ℚ) :
    positionsOf pixels fullData true random =
      (shuffledPositions (pixels.length / 4 * 3) random).take fullData.length := by
  simp [positionsOf]


/-- Claim C6, counterexample: a payload of `2^24` bits has a 25-digit header, so on a cover
of `2^23` pixels (`3 * 2^23` writable channels, more than needed) the randomized mode uses
`25 + 2^24` positions, one more than `min (24 + len(payload)) N`. -/
theorem positions_count_counterexample :
    (∀ k : Nat, 0 ≤ (fun _ => 0 : Nat → ℚ) k ∧ (fun _ => 0 : Nat → ℚ) k < 1) ∧
    (positionsOf (List.replicate (4 * 2 ^ 23) 0) (fullDataOf (List.replicate (2 ^ 24) '0'))
        true (fun _ => 0)).length
      ≠ min (24 + (List.replicate (2 ^ 24) '0').length) (3 * 2 ^ 23) := by
  refine ⟨fun _ => ⟨le_refl _, by norm_num⟩, ?_⟩
  have hd : (toString2 16777216).length = 25 := by decide
  rw [positionsOf_randomized, List.length_take, shuffledPositions_length]
  simp only [fullDataOf, List.length_append, padStart_length, List.length_replicate]
  norm_num [hd]

/-- Claim C6, amended: with every random value in `[0, 1)` (so every draw `j` satisfies
`0 ≤ j ≤ i`), the Fisher-Yates loop leaves `availablePositions` a permutation of
`0..N-1`, `N = 3 * P`; the positions used are its first `min (len(fullData)) N` entries,
where `len(fullData) = 24 + len(payload)` whenever `len(payload) < 2^24`; they are pairwise
distinct, each is `< N`, no two of them address the same channel, and the bounds guard
`pixelIndex < pixels.length` accepts every one of them. -/
theorem shuffled_positions (pixels : List Nat) (payload : List Char) (random : Nat → ℚ)
    (hr : ∀ k, 0 ≤ random k ∧ random k < 1) :
    (shuffledPositions (pixels.length / 4 * 3) random).Perm
      (List.range (pixels.length / 4 * 3)) ∧
    positionsOf pixels (fullDataOf payload) true random =
      (shuffledPositions (pixels.length / 4 * 3) random).take
        (min (fullDataOf payload).length (pixels.length / 4 * 3)) ∧
    (payload.length < 2 ^ 24 → (fullDataOf payload).length = 24 + payload.length) ∧
    (positionsOf pixels (fullDataOf payload) true random).Nodup ∧
    (∀ p ∈ positionsOf pixels (fullDataOf payload) true random,
      p < pixels.length / 4 * 3 ∧ p / 3 * 4 + p % 3 < pixels.length) ∧
    ∀ p ∈ positionsOf pixels (fullDataOf payload) true random,
      ∀ q ∈ positionsOf pixels (fullDataOf payload) true random,
        p / 3 * 4 + p % 3 = q / 3 * 4 + q % 3 → p = q := by
  have hperm := shuffledPositions_perm (pixels.length / 4 * 3) random hr
  have hnd : (shuffledPositions (pixels.length / 4 * 3) random).Nodup :=
    hperm.nodup_iff.2 (List.nodup_range _)
  have hmem : ∀ p ∈ positionsOf pixels (fullDataOf payload) true random,
      p < pixels.length / 4 * 3 := by
    intro p hp
    rw [positionsOf_randomized] at hp
    exact List.mem_range.1 (hperm.mem_iff.1 (List.mem_of_mem_take hp))
  refine ⟨hperm, ?_, fullDataOf_length payload, ?_, ?_, ?_⟩
  · rw [positionsOf_randomized]
    rcases Nat.le_total (fullDataOf payload).length (pixels.length / 4 * 3) with h | h
    · rw [Nat.min_eq_left h]
    · rw [Nat.min_eq_right h,
        List.take_of_length_le (by rw [shuffledPositions_length]; exact h),
        List.take_of_length_le (by rw [shuffledPositions_length])]
  · rw [positionsOf_randomized]
    exact hnd.sublist (List.take_sublist _ _)
  · intro p hp
    exact ⟨hmem p hp, pixelIndexOf_lt_of_lt p _ (hmem p hp)⟩
  · intro p _ q _ h
    exact pixelIndexOf_injective h

/-- An instance of `shuffled_positions`: a two-pixel cover, every draw equal to `1/2`. -/
theorem shuffled_positions_witness :
    (∀ k : Nat, 0 ≤ (fun _ => 1 / 2 : Nat → ℚ) k ∧ (fun _ => 1 / 2 : Nat → ℚ) k < 1) ∧
    ((shuffledPositions (([1, 2, 3, 4, 5, 6, 7, 8] : List Nat).length / 4 * 3)
        (fun _ => 1 / 2)).Perm
      (List.range (([1, 2, 3, 4, 5, 6, 7, 8] : List Nat).length / 4 * 3)) ∧
    positionsOf [1, 2, 3, 4, 5, 6, 7, 8] (fullDataOf ['1']) true (fun _ => 1 / 2) =
      (shuffledPositions (([1, 2, 3, 4, 5, 6, 7, 8] : List Nat).length / 4 * 3)
        (fun _ => 1 / 2)).take
        (min (fullDataOf ['1']).length (([1, 2, 3, 4, 5, 6, 7, 8] : List Nat).length / 4 * 3)) ∧
    (['1'].length < 2 ^ 24 → (fullDataOf ['1']).length = 24 + ['1'].length) ∧
    (positionsOf [1, 2, 3, 4, 5, 6, 7, 8] (fullDataOf ['1']) true (fun _ => 1 / 2)).Nodup ∧
    (∀ p ∈ positionsOf [1, 2, 3, 4, 5, 6, 7, 8] (fullDataOf ['1']) true (fun _ => 1 / 2),
      p < ([1, 2, 3, 4, 5, 6, 7, 8] : List Nat).length / 4 * 3 ∧
        p / 3 * 4 + p % 3 < ([1, 2, 3, 4, 5, 6, 7, 8] : List Nat).length) ∧
    ∀ p ∈ positionsOf [1, 2, 3, 4, 5, 6, 7, 8] (fullDataOf ['1']) true (fun _ => 1 / 2),
      ∀ q ∈ positionsOf [1, 2, 3, 4, 5, 6, 7, 8] (fullDataOf ['1']) true (fun _ => 1 / 2),
        p / 3 * 4 + p % 3 = q / 3 * 4 + q % 3 → p = q) :=
  ⟨fun _ => by norm_num,
    shuffled_positions [1, 2, 3, 4, 5, 6, 7, 8] ['1'] (fun _ => 1 / 2) (fun _ => by norm_num)⟩

/-- Claim C7, counterexample: `embedLSB` takes no seed, its shuffle draws from
`Math.random()`.  Two runs on the same 16-pixel cover and the same payload (the bits of `"A"`),
whose draws differ (all `0` in one run, all `1/2` in the other), use different positions
and produce different stego buffers. -/
theorem embedLSB_not_deterministic :
    (∀ k : Nat, 0 ≤ (fun _ => 0 : Nat → ℚ) k ∧ (fun _ => 0 : Nat → ℚ) k < 1) ∧
    (∀ k : Nat, 0 ≤ (fun _ => 1 / 2 : Nat → ℚ) k ∧ (fun _ => 1 / 2 : Nat → ℚ) k < 1) ∧
    positionsOf (List.replicate 64 0) (fullDataOf (huffmanEncode [65] 0).compressed) true
        (fun _ => 0) ≠
      positionsOf (List.replicate 64 0) (fullDataOf (huffmanEncode [65] 0).compressed) true
        (fun _ => 1 / 2) ∧
    embedLSB (some (List.replicate 64 0)) (huffmanEncode [65] 0).compressed true (fun _ => 0) ≠
      embedLSB (some (List.replicate 64 0)) (huffmanEncode [65] 0).compressed true
        (fun _ => 1 / 2) :=
  ⟨fun _ => by norm_num, fun _ => by norm_num, by decide!, by decide!⟩

/-- Claim C7, amended: the position order of the randomized mode is a function of the
values drawn from `Math.random()`, of the position-space size and of the stream length
only: two runs whose covers have the same number of pixels, whose payloads have the same
length and whose first `N - 1` draws agree use the same positions; if moreover cover and
payload are the same they resolve with the same stego buffer.  (There is no seed.) -/
theorem embedLSB_same_draws (pixels1 pixels2 : List Nat) (payload1 payload2 : List Char)
    (random1 random2 : Nat → ℚ) (hN : pixels1.length / 4 = pixels2.length / 4)
    (hL : payload1.length = payload2.length)
    (hR : ∀ k, k + 1 < pixels1.length / 4 * 3 → random1 k = random2 k) :
    positionsOf pixels1 (fullDataOf payload1) true random1 =
      positionsOf pixels2 (fullDataOf payload2) true random2 ∧
    (pixels1 = pixels2 → payload1 = payload2 →
      embedLSB (some pixels1) payload1 true random1 =
        embedLSB (some pixels2) payload2 true random2) := by
  have hlen : (fullDataOf payload1).length = (fullDataOf payload2).length := by
    simp only [fullDataOf, List.length_append, padStart_length, hL]
  have hpos : positionsOf pixels1 (fullDataOf payload1) true random1 =
      positionsOf pixels2 (fullDataOf payload2) true random2 := by
    rw [positionsOf_randomized, positionsOf_randomized, hlen, ← hN]
    unfold shuffledPositions
    rw [shuffleFrom_congr random1 random2]
    intro m hm
    rw [Nat.zero_add]
    exact hR m (by omega)
  refine ⟨hpos, fun hpx hpl => ?_⟩
  subst hpx; subst hpl
  simp only [embedLSB, embedPixels, hpos]

/-- An instance of `embedLSB_same_draws`: two streams that agree on the five draws of a
two-pixel shuffle and differ afterwards. -/
theorem embedLSB_same_draws_witness :
    ([1, 2, 3, 4, 5, 6, 7, 8] : List Nat).length / 4
      = ([1, 2, 3, 4, 5, 6, 7, 8] : List Nat).length / 4 ∧
    ['1'].length = ['1'].length ∧
    (∀ k, k + 1 < ([1, 2, 3, 4, 5, 6, 7, 8] : List Nat).length / 4 * 3 →
      (fun k => if k < 5 then 1 / 2 else 0 : Nat → ℚ) k = (fun _ => 1 / 2 : Nat → ℚ) k) ∧
    (positionsOf [1, 2, 3, 4, 5, 6, 7, 8] (fullDataOf ['1']) true
        (fun k => if k < 5 then 1 / 2 else 0) =
      positionsOf [1, 2, 3, 4, 5, 6, 7, 8] (fullDataOf ['1']) true (fun _ => 1 / 2) ∧
    (([1, 2, 3, 4, 5, 6, 7, 8] : List Nat) = [1, 2, 3, 4, 5, 6, 7, 8] → ['1'] = ['1'] →
      embedLSB (some [1, 2, 3, 4, 5, 6, 7, 8]) ['1'] true (fun k => if k < 5 then 1 / 2 else 0)
        = embedLSB (some [1, 2, 3, 4, 5, 6, 7, 8]) ['1'] true (fun _ => 1 / 2))) :=
  ⟨rfl, rfl, fun k hk => by
      have : k < 5 := by simp at hk; omega
      simp [this],
    embedLSB_same_draws [1, 2, 3, 4, 5, 6, 7, 8] [1, 2, 3, 4, 5, 6, 7, 8] ['1'] ['1']
      (fun k => if k < 5 then 1 / 2 else 0) (fun _ => 1 / 2) rfl rfl
      (fun k hk => by
        have : k < 5 := by simp at hk; omega
        simp [this])⟩

/-! ## `huffmanEncode`: the bit string and the reported figures -/

theorem huffmanEncode_compressed_length_ge (text : List Nat) (r : ℚ) :
    8 * text.length ≤ (huffmanEncode text r).compressed.length := by
  simp only [huffmanEncode]
  induction text with
  | nil => simp
  | cons c cs ih =>
    simp only [List.map_cons, List.flatten_cons, List.length_append, List.length_cons,
      padStart_length]
    omega

theorem huffmanEncode_compressedBits_lt (text : List Nat) (r : ℚ) (ht : text ≠ [])
    (hr1 : r < 1) :
    (huffmanEncode text r).compressedBits < ((huffmanEncode text r).originalBits : ℤ) := by
  have hpos : 0 < text.length := List.length_pos.2 ht
  have hq : (0 : ℚ) < ((text.length * 8 : ℕ) : ℚ) := by
    exact_mod_cast Nat.mul_pos hpos (by norm_num)
  show Rat.floor (((text.length * 8 : ℕ) : ℚ) * (0.5 + r * 0.15)) < ((text.length * 8 : ℕ) : ℤ)
  have hfl : ∀ q : ℚ, Rat.floor q = ⌊q⌋ := fun _ => rfl
  rw [hfl, Int.floor_lt]
  push_cast at hq ⊢
  have : (0.5 : ℚ) + r * 0.15 < 1 := by norm_num; linarith
  nlinarith

theorem huffmanEncode_compressedBits_nonneg (text : List Nat) (r : ℚ) (hr0 : 0 ≤ r) :
    0 ≤ (huffmanEncode text r).compressedBits := by
  show 0 ≤ Rat.floor (((text.length * 8 : ℕ) : ℚ) * (0.5 + r * 0.15))
  have hfl : ∀ q : ℚ, Rat.floor q = ⌊q⌋ := fun _ => rfl
  rw [hfl]
  apply Int.floor_nonneg.2
  have : (0 : ℚ) ≤ ((text.length * 8 : ℕ) : ℚ) := Nat.cast_nonneg _
  have h2 : (0 : ℚ) ≤ 0.5 + r * 0.15 := by norm_num; linarith
  exact mul_nonneg this h2

/-- Claim C8, counterexample: for the text `"A"` and the draw `0`, `compressedBits` is `4`
while the returned bit string `"01000001"` has 8 bits. -/
theorem compressedBits_counterexample :
    (0 : ℚ) ≤ 0 ∧ (0 : ℚ) < 1 ∧
    (huffmanEncode [65] 0).compressed = ['0', '1', '0', '0', '0', '0', '0', '1'] ∧
    (huffmanEncode [65] 0).compressedBits = 4 ∧
    (huffmanEncode [65] 0).compressedBits ≠ ((huffmanEncode [65] 0).compressed.length : ℤ) :=
  ⟨le_refl _, by norm_num, by decide, by decide!, by decide!⟩

/-- Claim C8, amended: for every text and every draw in `[0, 1)`, `huffmanEncode` returns
the bit string with `originalBits = 8 * text.length`, which is at most the number of bits
of that string, and a simulated `compressedBits` with `0 ≤ compressedBits ≤ originalBits`;
`compressedBits` equals the number of bits of the returned string only for the empty text
(for a non-empty text it is strictly smaller). -/
theorem compressedBits_vs_length (text : List Nat) (r : ℚ) (hr0 : 0 ≤ r) (hr1 : r < 1) :
    (huffmanEncode text r).originalBits = 8 * text.length ∧
    (huffmanEncode text r).originalBits ≤ (huffmanEncode text r).compressed.length ∧
    0 ≤ (huffmanEncode text r).compressedBits ∧
    (huffmanEncode text r).compressedBits ≤ ((huffmanEncode text r).originalBits : ℤ) ∧
    ((huffmanEncode text r).compressedBits = ((huffmanEncode text r).compressed.length : ℤ)
      ↔ text = []) := by
  have hob : (huffmanEncode text r).originalBits = 8 * text.length := by
    simp [huffmanEncode, Nat.mul_comm]
  have hge := huffmanEncode_compressed_length_ge text r
  have hnn := huffmanEncode_compressedBits_nonneg text r hr0
  by_cases ht : text = []
  · subst ht
    have h0 : (huffmanEncode [] r).compressedBits = 0 := by
      simp [huffmanEncode, Rat.floor_def']
    refine ⟨hob, by rw [hob]; exact hge, hnn, ?_, ?_⟩
    · rw [h0]; exact Int.ofNat_nonneg _
    · rw [h0]; simp [huffmanEncode]
  · have hlt := huffmanEncode_compressedBits_lt text r ht hr1
    refine ⟨hob, by rw [hob]; exact hge, hnn, le_of_lt hlt, ?_⟩
    constructor
    · intro h
      rw [hob] at hlt
      omega
    · intro h; exact absurd h ht

/-- An instance of `compressedBits_vs_length` for the text `"Hi"` and the draw `0.9`. -/
theorem compressedBits_vs_length_witness :
    (0 : ℚ) ≤ 9 / 10 ∧ (9 / 10 : ℚ) < 1 ∧
    (huffmanEncode [72, 105] (9 / 10)).originalBits = 8 * [72, 105].length ∧
    (huffmanEncode [72, 105] (9 / 10)).originalBits
      ≤ (huffmanEncode [72, 105] (9 / 10)).compressed.length ∧
    0 ≤ (huffmanEncode [72, 105] (9 / 10)).compressedBits ∧
    (huffmanEncode [72, 105] (9 / 10)).compressedBits
      ≤ ((huffmanEncode [72, 105] (9 / 10)).originalBits : ℤ) ∧
    ((huffmanEncode [72, 105] (9 / 10)).compressedBits
        = ((huffmanEncode [72, 105] (9 / 10)).compressed.length : ℤ)
      ↔ ([72, 105] : List Nat) = []) :=
  ⟨by norm_num, by norm_num,
    compressedBits_vs_length [72, 105] (9 / 10) (by norm_num) (by norm_num)⟩

/-- The reduction shown to the user really lies in the interval `(35, 50]` percent. -/
theorem reductionPercent_range (text : List Nat) (r : ℚ) (ht : text ≠ []) (hr0 : 0 ≤ r)
    (hr1 : r < 1) :
    35 < reductionPercent (huffmanEncode text r) ∧
      reductionPercent (huffmanEncode text r) ≤ 50 := by
  have hpos : 0 < text.length := List.length_pos.2 ht
  have hn : (0 : ℚ) < (text.length : ℚ) := by exact_mod_cast hpos
  have hfl : ∀ q : ℚ, Rat.floor q = ⌊q⌋ := fun _ => rfl
  have hcb : (huffmanEncode text r).compressedBits
      = ⌊((text.length : ℚ) * 8) * (0.5 + r * 0.15)⌋ := by
    simp [huffmanEncode, hfl]
  have hob : ((huffmanEncode text r).originalBits : ℚ) = (text.length : ℚ) * 8 := by
    simp [huffmanEncode]
  have hup : (((huffmanEncode text r).compressedBits : ℤ) : ℚ)
      ≤ ((text.length : ℚ) * 8) * (0.5 + r * 0.15) := by
    rw [hcb]; exact Int.floor_le _
  have hlow : ((4 * text.length : ℕ) : ℤ) ≤ (huffmanEncode text r).compressedBits := by
    rw [hcb, Int.le_floor]
    push_cast
    nlinarith
  have hlow' : (4 : ℚ) * (text.length : ℚ) ≤ (((huffmanEncode text r).compressedBits : ℤ) : ℚ) := by
    exact_mod_cast hlow
  unfold reductionPercent
  rw [hob]
  have h8 : (0 : ℚ) < (text.length : ℚ) * 8 := by positivity
  constructor
  · have : (((huffmanEncode text r).compressedBits : ℤ) : ℚ) / ((text.length : ℚ) * 8) < 65 / 100 := by
      rw [div_lt_iff₀ h8]
      have : (0.5 : ℚ) + r * 0.15 < 65 / 100 := by norm_num; linarith
      nlinarith
    linarith
  · have : (1 : ℚ) / 2 ≤ (((huffmanEncode text r).compressedBits : ℤ) : ℚ) / ((text.length : ℚ) * 8) := by
      rw [le_div_iff₀ h8]
      linarith
    linarith

/-- Claim C10, at the failing input: for the one-character text `"A"` and the draw `0.9`,
`compressedBits` is `5` out of `8` and the reported reduction is 37.5 percent, below the
advertised 40. -/
theorem reduction_below_advertised :
    ([65] : List Nat) ≠ [] ∧ (0 : ℚ) ≤ 9 / 10 ∧ (9 / 10 : ℚ) < 1 ∧
    (huffmanEncode [65] (9 / 10)).originalBits = 8 ∧
    (huffmanEncode [65] (9 / 10)).compressedBits = 5 ∧
    reductionPercent (huffmanEncode [65] (9 / 10)) = 75 / 2 ∧
    ¬ (40 ≤ reductionPercent (huffmanEncode [65] (9 / 10)) ∧
        reductionPercent (huffmanEncode [65] (9 / 10)) ≤ 60) := by
  have h : reductionPercent (huffmanEncode [65] (9 / 10)) = 75 / 2 := by decide!
  refine ⟨by decide, by norm_num, by norm_num, by decide, by decide!, h, ?_⟩
  rw [h]
  norm_num


/-! ## The request handlers -/

/-- Claim C9. Empty input is rejected: with an empty secret text, whether or not a cover
image is loaded, `performEncode` only opens the dialog asking for an image and a text.  It
makes no call to `huffmanEncode` or `embedLSB` (so the division by `originalBits` is not
evaluated) and leaves every state cell, `stats` and `encodedImageData` included, as it
was. -/
theorem performEncode_empty_text (s : AppState) (random : Nat → ℚ)
    (h : s.secretText = []) :
    (performEncode s random).2 = [Event.alert "Please provide both an image and secret text"] ∧
    (∀ e ∈ (performEncode s random).2, ∃ message, e = Event.alert message) ∧
    (performEncode s random).1 = s ∧
    (performEncode s random).1.stats = s.stats ∧
    (performEncode s random).1.encodedImageData = s.encodedImageData := by
  have hpe : performEncode s random
      = (s, [Event.alert "Please provide both an image and secret text"]) := by
    simp [performEncode, h]
  rw [hpe]
  refine ⟨rfl, ?_, rfl, rfl, rfl⟩
  intro e he
  exact ⟨_, List.mem_singleton.1 he⟩

/-- An instance of `performEncode_empty_text` on `emptyTextSession`. -/
theorem performEncode_empty_text_witness :
    emptyTextSession.secretText = [] ∧
    ((performEncode emptyTextSession (fun _ => 1 / 2)).2
      = [Event.alert "Please provide both an image and secret text"] ∧
    (∀ e ∈ (performEncode emptyTextSession (fun _ => 1 / 2)).2,
      ∃ message, e = Event.alert message) ∧
    (performEncode emptyTextSession (fun _ => 1 / 2)).1 = emptyTextSession ∧
    (performEncode emptyTextSession (fun _ => 1 / 2)).1.stats = emptyTextSession.stats ∧
    (performEncode emptyTextSession (fun _ => 1 / 2)).1.encodedImageData
      = emptyTextSession.encodedImageData) :=
  ⟨rfl, performEncode_empty_text emptyTextSession (fun _ => 1 / 2) rfl⟩

/-- Claim C5, counterexample: the plaintext `"A"` is encoded into a 16-pixel cover, which
has room for its `24 + 8` bits, and the encoded image is decoded: the text shown is the
fixed demo sentence, not `"A"`. -/
theorem round_trip_counterexample :
    ([65] : List Nat) ≠ [] ∧
    24 + (huffmanEncode [65] 0).compressed.length ≤ 3 * ((List.replicate 64 0).length / 4) ∧
    encodeThenDecode (List.replicate 64 0) [65] false (fun _ => 0) = some demoText ∧
    encodeThenDecode (List.replicate 64 0) [65] false (fun _ => 0) ≠ some [65] :=
  ⟨by decide, by decide, by decide!, by decide!⟩

/-- Claim C5, amended: for every non-empty plaintext `p` and every cover image, decoding
the image produced by the encode path with `simulateDecode` yields the fixed sentence of
line 146, whatever `p`, the cover, the mode and the random draws are; the result is `p`
only when `p` is that sentence. -/
theorem decode_is_constant (cover : List Nat) (p : List Nat) (randomize : Bool)
    (random : Nat → ℚ) (hp : p ≠ []) :
    encodeThenDecode cover p randomize random = some demoText ∧
    (encodeThenDecode cover p randomize random = some p ↔ p = demoText) := by
  have h : encodeThenDecode cover p randomize random = some demoText := by
    simp [encodeThenDecode, performEncode, hp, embedLSB, simulateDecode]
  rw [h]
  exact ⟨rfl, ⟨fun h => (Option.some.inj h).symm, fun h => by rw [h]⟩⟩

/-- An instance of `decode_is_constant` for the text `"Hi"` in randomized mode. -/
theorem decode_is_constant_witness :
    ([72, 105] : List Nat) ≠ [] ∧
    encodeThenDecode (List.replicate 64 7) [72, 105] true (fun _ => 1 / 2) = some demoText ∧
    (encodeThenDecode (List.replicate 64 7) [72, 105] true (fun _ => 1 / 2) = some [72, 105]
      ↔ [72, 105] = demoText) :=
  ⟨by decide, decode_is_constant _ _ _ _ (by decide)⟩


/-! ## `huffmanEncode`: the payload bit string -/

theorem block_eq_eightDigits :
    ∀ c, c < 256 → padStart 8 '0' (toString2 c) = eightDigits c := by
  decide!

theorem huffmanEncode_compressed_cons (c : Nat) (cs : List Nat) (r : ℚ) :
    (huffmanEncode (c :: cs) r).compressed =
      padStart 8 '0' (toString2 c) ++ (huffmanEncode cs r).compressed := by
  simp [huffmanEncode]

theorem huffmanEncode_compressed_eq (text : List Nat) (r : ℚ) (h : ∀ c ∈ text, c < 256) :
    (huffmanEncode text r).compressed = (text.map eightDigits).flatten := by
  induction text with
  | nil => simp [huffmanEncode]
  | cons c cs ih =>
    rw [huffmanEncode_compressed_cons, ih (fun x hx => h x (List.mem_cons_of_mem _ hx)),
      block_eq_eightDigits c (h c (List.mem_cons_self _ _))]
    simp

theorem huffmanEncode_compressed_binary (text : List Nat) (r : ℚ) :
    IsBinary (huffmanEncode text r).compressed := by
  induction text with
  | nil => intro c hc; simp [huffmanEncode] at hc
  | cons d ds ih =>
    intro c hc
    rw [huffmanEncode_compressed_cons, List.mem_append] at hc
    rcases hc with hc | hc
    · exact padStart_binary 8 _ (toString2_binary d) c hc
    · exact ih c hc

theorem readBigEndian_eightDigits (c : Nat) (h : c < 256) :
    readBigEndian (eightDigits c) = c := by
  rw [← block_eq_eightDigits c h, padStart, readBigEndian_replicate_zero_append,
    toString2_read]

theorem readBlocks_eightDigits_append (c : Nat) (h : c < 256) (rest : List Char) :
    readBlocks (eightDigits c ++ rest) = c :: readBlocks rest := by
  have hv := readBigEndian_eightDigits c h
  simp only [eightDigits, List.map_cons, List.map_nil, List.cons_append, List.nil_append,
    readBlocks] at hv ⊢
  rw [hv]
  rfl

theorem readBlocks_flatten (text : List Nat) (h : ∀ c ∈ text, c < 256) :
    readBlocks (text.map eightDigits).flatten = text := by
  induction text with
  | nil => simp [readBlocks]
  | cons c cs ih =>
    rw [List.map_cons, List.flatten_cons,
      readBlocks_eightDigits_append c (h c (List.mem_cons_self _ _)),
      ih (fun x hx => h x (List.mem_cons_of_mem _ hx))]

theorem eightDigits_length (c : Nat) : (eightDigits c).length = 8 := by
  simp [eightDigits]

theorem flatten_eightDigits_length (text : List Nat) :
    (text.map eightDigits).flatten.length = 8 * text.length := by
  induction text with
  | nil => simp
  | cons c cs ih =>
    rw [List.map_cons, List.flatten_cons, List.length_append, ih, eightDigits_length,
      List.length_cons]
    omega

theorem toDigitsCore_length_ge (fuel : Nat) : ∀ (n : Nat), n < fuel →
    ∀ k, 2 ^ k ≤ n → k + 1 ≤ (Nat.toDigitsCore 2 fuel n []).length := by
  induction fuel with
  | zero => intro n h; omega
  | succ fuel ih =>
    intro n hn k hk
    simp only [Nat.toDigitsCore]
    by_cases h : n / 2 = 0
    · simp only [h, if_true, List.length_singleton]
      have hlt : n < 2 := by omega
      cases k with
      | zero => omega
      | succ k =>
        have : 2 ≤ 2 ^ (k + 1) := by
          calc 2 = 2 ^ 1 := rfl
            _ ≤ 2 ^ (k + 1) := Nat.pow_le_pow_right (by omega) (by omega)
        omega
    · simp only [h, if_false]
      rw [toDigitsCore_append]
      simp only [List.length_append, List.length_singleton]
      cases k with
      | zero => omega
      | succ k =>
        have h2 : 2 ^ k ≤ n / 2 := by
          rw [pow_succ] at hk
          omega
        have := ih (n / 2) (by omega) k h2
        omega

theorem toString2_length_gt (c : Nat) (h : 256 ≤ c) : 8 < (toString2 c).length := by
  exact toDigitsCore_length_ge (c + 1) c (Nat.lt_succ_self c) 8 (by simpa using h)

theorem huffmanEncode_compressed_length_gt (text : List Nat) (r : ℚ)
    (h : ∃ c ∈ text, 256 ≤ c) :
    8 * text.length < (huffmanEncode text r).compressed.length := by
  induction text with
  | nil => obtain ⟨c, hc, _⟩ := h; simp at hc
  | cons d ds ih =>
    rw [huffmanEncode_compressed_cons, List.length_append, padStart_length, List.length_cons]
    have hge := huffmanEncode_compressed_length_ge ds r
    by_cases hd : 256 ≤ d
    · have := toString2_length_gt d hd
      omega
    · obtain ⟨c, hc, hc256⟩ := h
      rcases List.mem_cons.1 hc with rfl | hc
      · exact absurd hc256 hd
      · have := ih ⟨c, hc, hc256⟩
        omega


/-- Claim C11. Payload bit string of `huffmanEncode`: for a text whose code units are all
`< 256`, the returned `compressed` string is the concatenation, in text order, of each
code unit written as exactly 8 binary digits, most significant first; it contains only
`'0'`/`'1'`, its length is `8 * text.length = originalBits`, the text is recovered by
reading it in 8-bit blocks, and two different such texts never give the same string.  For a
text containing a code unit `≥ 256` the length is strictly greater than `originalBits`. -/
theorem huffmanEncode_payload (text : List Nat) (r : ℚ) :
    ((∀ c ∈ text, c < 256) →
      (huffmanEncode text r).compressed = (text.map eightDigits).flatten ∧
      (∀ c ∈ text, (eightDigits c).length = 8 ∧ readBigEndian (eightDigits c) = c) ∧
      IsBinary (huffmanEncode text r).compressed ∧
      (huffmanEncode text r).compressed.length = 8 * text.length ∧
      (huffmanEncode text r).compressed.length = (huffmanEncode text r).originalBits ∧
      readBlocks (huffmanEncode text r).compressed = text ∧
      ∀ (text2 : List Nat) (r2 : ℚ), (∀ c ∈ text2, c < 256) →
        (huffmanEncode text2 r2).compressed = (huffmanEncode text r).compressed →
        text2 = text) ∧
    ((∃ c ∈ text, 256 ≤ c) →
      (huffmanEncode text r).originalBits < (huffmanEncode text r).compressed.length) := by
  have hob : (huffmanEncode text r).originalBits = 8 * text.length := by
    simp [huffmanEncode, Nat.mul_comm]
  refine ⟨fun h => ?_, fun h => ?_⟩
  · have heq := huffmanEncode_compressed_eq text r h
    have hlen : (huffmanEncode text r).compressed.length = 8 * text.length := by
      rw [heq, flatten_eightDigits_length]
    have hread : readBlocks (huffmanEncode text r).compressed = text := by
      rw [heq, readBlocks_flatten text h]
    refine ⟨heq, fun c hc => ⟨eightDigits_length c, readBigEndian_eightDigits c (h c hc)⟩,
      huffmanEncode_compressed_binary text r, hlen, by rw [hlen, hob], hread, ?_⟩
    intro text2 r2 h2 hsame
    have hread2 : readBlocks (huffmanEncode text2 r2).compressed = text2 := by
      rw [huffmanEncode_compressed_eq text2 r2 h2, readBlocks_flatten text2 h2]
    rw [← hread2, hsame, hread]
  · rw [hob]
    exact huffmanEncode_compressed_length_gt text r h

/-- An instance of `huffmanEncode_payload`: the text `"Hi"` for the first part, a text with
the code unit `300` for the second. -/
theorem huffmanEncode_payload_witness :
    (∀ c ∈ ([72, 105] : List Nat), c < 256) ∧
    ((huffmanEncode [72, 105] 0).compressed = (([72, 105] : List Nat).map eightDigits).flatten ∧
      (∀ c ∈ ([72, 105] : List Nat),
        (eightDigits c).length = 8 ∧ readBigEndian (eightDigits c) = c) ∧
      IsBinary (huffmanEncode [72, 105] 0).compressed ∧
      (huffmanEncode [72, 105] 0).compressed.length = 8 * ([72, 105] : List Nat).length ∧
      (huffmanEncode [72, 105] 0).compressed.length = (huffmanEncode [72, 105] 0).originalBits ∧
      readBlocks (huffmanEncode [72, 105] 0).compressed = [72, 105] ∧
      ∀ (text2 : List Nat) (r2 : ℚ), (∀ c ∈ text2, c < 256) →
        (huffmanEncode text2 r2).compressed = (huffmanEncode [72, 105] 0).compressed →
        text2 = [72, 105]) ∧
    (∃ c ∈ ([72, 300] : List Nat), 256 ≤ c) ∧
    (huffmanEncode [72, 300] 0).originalBits < (huffmanEncode [72, 300] 0).compressed.length :=
  ⟨by decide, (huffmanEncode_payload [72, 105] 0).1 (by decide),
    ⟨300, by decide, by decide⟩,
    (huffmanEncode_payload [72, 300] 0).2 ⟨300, by decide, by decide⟩⟩

end SteganoHuff
